import Mathlib

/-!
Verification of `repysensors.py`, a lock-guarded serialization and
normalization shim between a sandboxed runtime and native sensor bindings.

The embedding models:
* the vibration guard `vibrate` together with the event trace it produces
  (lock acquire, native call, lock release);
* the timestamp normalizer `normalize_sensor_event_time` and the module
  state holding the epoch offset `sensor_zulu_time` sampled at init;
* the shape adapters `refine_1d` … `refine_6d`;
* the Unicode scrubber `scrub_unicode_from` over a `Value` type mirroring
  the Python 2 value universe (str = byte string, unicode = code points);
* the generic lock wrapper `call_into_function` produced by `wrap_with`,
  including the trace it leaves when the native call raises;
* `get_light`, which projects the illumination scalar out of the native
  five-field tuple;
* a two-thread interleaving model of the four independent lock domains.

Numeric values (durations, timestamps, sensor readings) are modelled as
rationals; Python float division by `1000.` becomes exact division in `ℚ`.
-/

/-- Allow at most this many seconds of vibration
(`MAX_VIBRATION_DURATION = 10` in the source). -/
def MAX_VIBRATION_DURATION : ℚ := 10

/-- Events emitted by the vibration guard: acquiring the vibration lock,
the native `androidlog.vibrate` call, and releasing the lock. -/
inductive VibEvent where
  | acq : VibEvent
  | native : ℚ → VibEvent
  | rel : VibEvent
deriving DecidableEq

/-- Errors surfaced by this module; the only validated error is the
argument error raised by `vibrate`. -/
inductive RepyError where
  | RepyArgumentError : String → RepyError
deriving DecidableEq

/-- Model of `vibrate(seconds)`: on `0 <= seconds <= MAX_VIBRATION_DURATION`
it acquires the vibration lock, performs the native vibration call and
releases the lock; otherwise it raises `RepyArgumentError` and emits no
events at all.  The second component is the event trace of the call. -/
def vibrate (seconds : ℚ) : Except RepyError Unit × List VibEvent :=
  if 0 ≤ seconds ∧ seconds ≤ MAX_VIBRATION_DURATION then
    (Except.ok (), [VibEvent.acq, VibEvent.native seconds, VibEvent.rel])
  else
    (Except.error (RepyError.RepyArgumentError
        "Vibration duration must be between 0 and 10"), [])

/-- Number of native vibration calls recorded in a trace. -/
def countNativeVib (tr : List VibEvent) : Nat :=
  (tr.filter fun e => match e with
    | VibEvent.native _ => true
    | _ => false).length

/-- Whether the vibration lock is held after replaying a trace that
started with the lock free. -/
def vibHeldAfter (tr : List VibEvent) : Bool :=
  tr.foldl (fun h e => match e with
    | VibEvent.acq => true
    | VibEvent.rel => false
    | _ => h) false

/-- Helper scanning a trace: `true` iff every native event occurs while
the lock is held, given the lock state `held` at the start. -/
def vibNativeUnderLockFrom (held : Bool) : List VibEvent → Bool
  | [] => true
  | VibEvent.acq :: rest => vibNativeUnderLockFrom true rest
  | VibEvent.rel :: rest => vibNativeUnderLockFrom false rest
  | VibEvent.native _ :: rest => held && vibNativeUnderLockFrom held rest

/-- Every native event of the trace happens while the vibration lock is
held (the lock being free initially). -/
def vibNativeUnderLock (tr : List VibEvent) : Bool :=
  vibNativeUnderLockFrom false tr

/-- C1: for every numeric duration outside the closed interval
[0, MAX_VIBRATION_DURATION], `vibrate` raises `RepyArgumentError`,
performs zero native calls (the trace is empty) and leaves the vibration
lock in its initial released state. -/
theorem vibrate_out_of_range (d : ℚ)
    (h : d < 0 ∨ MAX_VIBRATION_DURATION < d) :
    (vibrate d).1 = Except.error (RepyError.RepyArgumentError
        "Vibration duration must be between 0 and 10") ∧
    (vibrate d).2 = [] ∧
    countNativeVib (vibrate d).2 = 0 ∧
    vibHeldAfter (vibrate d).2 = false := by
  have hc : ¬ (0 ≤ d ∧ d ≤ MAX_VIBRATION_DURATION) := by
    rcases h with h | h
    · rintro ⟨h0, -⟩
      exact absurd h0 (not_le.mpr h)
    · rintro ⟨-, h1⟩
      exact absurd h1 (not_le.mpr h)
  simp [vibrate, hc, countNativeVib, vibHeldAfter]

/-- Witness for C1 at the concrete out-of-range duration 11. -/
theorem vibrate_out_of_range_witness :
    (vibrate 11).1 = Except.error (RepyError.RepyArgumentError
        "Vibration duration must be between 0 and 10") ∧
    (vibrate 11).2 = [] ∧
    countNativeVib (vibrate 11).2 = 0 ∧
    vibHeldAfter (vibrate 11).2 = false :=
  vibrate_out_of_range 11 (Or.inr (by norm_num [MAX_VIBRATION_DURATION]))

/-- C2: for every duration in [0, MAX_VIBRATION_DURATION], `vibrate`
acquires the vibration lock, performs exactly one native vibration call
while holding it, releases it, and returns normally. -/
theorem vibrate_in_range (d : ℚ)
    (h0 : 0 ≤ d) (h1 : d ≤ MAX_VIBRATION_DURATION) :
    (vibrate d).1 = Except.ok () ∧
    (vibrate d).2 = [VibEvent.acq, VibEvent.native d, VibEvent.rel] ∧
    countNativeVib (vibrate d).2 = 1 ∧
    vibNativeUnderLock (vibrate d).2 = true ∧
    vibHeldAfter (vibrate d).2 = false := by
  simp [vibrate, h0, h1, countNativeVib, vibNativeUnderLock,
    vibNativeUnderLockFrom, vibHeldAfter]

/-- Witness for C2 at the concrete in-range duration 3. -/
theorem vibrate_in_range_witness :
    (vibrate 3).1 = Except.ok () ∧
    (vibrate 3).2 = [VibEvent.acq, VibEvent.native 3, VibEvent.rel] ∧
    countNativeVib (vibrate 3).2 = 1 ∧
    vibNativeUnderLock (vibrate 3).2 = true ∧
    vibHeldAfter (vibrate 3).2 = false :=
  vibrate_in_range 3 (by norm_num) (by norm_num [MAX_VIBRATION_DURATION])

/-- Module-level state of `repysensors.py`: the single scalar epoch
offset `sensor_zulu_time` sampled at initialization. -/
structure ModuleState where
  sensor_zulu_time : ℚ
deriving DecidableEq

/-- Module initialization: `_, sensor_zulu_time, _, _, _ =
sensor.get_acceleration()` stores the second field of the initial native
acceleration sample. -/
def initModule (acceleration_reading : ℚ × ℚ × ℚ × ℚ × ℚ) : ModuleState :=
  { sensor_zulu_time := acceleration_reading.2.1 }

/-- `normalize_sensor_event_time(t)`: convert the sensor event timestamp
from milliseconds to seconds and rebase it on the stored epoch offset. -/
def normalize_sensor_event_time (st : ModuleState) (t : ℚ) : ℚ :=
  (t - st.sensor_zulu_time) / 1000

/-- C4: the normalizer is the affine map `t ↦ (t - offset) / 1000` of its
argument (with nonzero slope), and it sends the stored offset to 0. -/
theorem normalize_affine (st : ModuleState) :
    (∀ t, normalize_sensor_event_time st t = (t - st.sensor_zulu_time) / 1000) ∧
    (∃ a b : ℚ, a ≠ 0 ∧ ∀ t, normalize_sensor_event_time st t = a * t + b) ∧
    normalize_sensor_event_time st st.sensor_zulu_time = 0 := by
  refine ⟨fun t => rfl, ⟨1 / 1000, -(st.sensor_zulu_time / 1000), by norm_num, ?_⟩, ?_⟩
  · intro t
    simp [normalize_sensor_event_time]
    ring
  · simp [normalize_sensor_event_time]

/-- `refine_1d`: drop the epoch time from a `(epochtime, eventtime, x)`
tuple and normalize the event time; `None` passes through. -/
def refine_1d (st : ModuleState) (returned_tuple : Option (ℚ × ℚ × ℚ)) :
    Option (List ℚ) :=
  match returned_tuple with
  | some (_, t, x) => some [normalize_sensor_event_time st t, x]
  | none => none

/-- `refine_3d`: drop the epoch time from a `(epochtime, eventtime, x, y, z)`
tuple and normalize the event time; `None` passes through. -/
def refine_3d (st : ModuleState) (returned_tuple : Option (ℚ × ℚ × ℚ × ℚ × ℚ)) :
    Option (List ℚ) :=
  match returned_tuple with
  | some (_, t, x, y, z) => some [normalize_sensor_event_time st t, x, y, z]
  | none => none

/-- `refine_4d`: drop the epoch time from a
`(epochtime, eventtime, x, y, z, w)` tuple and normalize the event time;
`None` passes through. -/
def refine_4d (st : ModuleState)
    (returned_tuple : Option (ℚ × ℚ × ℚ × ℚ × ℚ × ℚ)) : Option (List ℚ) :=
  match returned_tuple with
  | some (_, t, x, y, z, w) => some [normalize_sensor_event_time st t, x, y, z, w]
  | none => none

/-- `refine_5d`: drop the epoch time from a
`(epochtime, eventtime, x, y, z, v, w)` tuple and normalize the event
time; `None` passes through. -/
def refine_5d (st : ModuleState)
    (returned_tuple : Option (ℚ × ℚ × ℚ × ℚ × ℚ × ℚ × ℚ)) : Option (List ℚ) :=
  match returned_tuple with
  | some (_, t, x, y, z, v, w) =>
      some [normalize_sensor_event_time st t, x, y, z, v, w]
  | none => none

/-- `refine_6d`: drop the epoch time from a
`(epochtime, eventtime, x, y, z, u, v, w)` tuple and normalize the event
time; `None` passes through. -/
def refine_6d (st : ModuleState)
    (returned_tuple : Option (ℚ × ℚ × ℚ × ℚ × ℚ × ℚ × ℚ × ℚ)) : Option (List ℚ) :=
  match returned_tuple with
  | some (_, t, x, y, z, u, v, w) =>
      some [normalize_sensor_event_time st t, x, y, z, u, v, w]
  | none => none

/-- C3: each shape adapter sends a well-formed native tuple of N fields to
a list of length N-1 whose head is the normalized event time and whose
tail is the remaining fields unchanged, and sends `None` to `None`. -/
theorem refine_adapters_spec (st : ModuleState) (e t x y z u v w : ℚ) :
    (refine_1d st (some (e, t, x)) = some [normalize_sensor_event_time st t, x] ∧
      (refine_1d st (some (e, t, x))).map List.length = some 2 ∧
      refine_1d st none = none) ∧
    (refine_3d st (some (e, t, x, y, z)) =
        some [normalize_sensor_event_time st t, x, y, z] ∧
      (refine_3d st (some (e, t, x, y, z))).map List.length = some 4 ∧
      refine_3d st none = none) ∧
    (refine_4d st (some (e, t, x, y, z, w)) =
        some [normalize_sensor_event_time st t, x, y, z, w] ∧
      (refine_4d st (some (e, t, x, y, z, w))).map List.length = some 5 ∧
      refine_4d st none = none) ∧
    (refine_5d st (some (e, t, x, y, z, v, w)) =
        some [normalize_sensor_event_time st t, x, y, z, v, w] ∧
      (refine_5d st (some (e, t, x, y, z, v, w))).map List.length = some 6 ∧
      refine_5d st none = none) ∧
    (refine_6d st (some (e, t, x, y, z, u, v, w)) =
        some [normalize_sensor_event_time st t, x, y, z, u, v, w] ∧
      (refine_6d st (some (e, t, x, y, z, u, v, w))).map List.length = some 7 ∧
      refine_6d st none = none) := by
  refine ⟨⟨rfl, rfl, rfl⟩, ⟨rfl, rfl, rfl⟩, ⟨rfl, rfl, rfl⟩,
    ⟨rfl, rfl, rfl⟩, ⟨rfl, rfl, rfl⟩⟩

/-- One call of the normalizer as a state transformer: it reads the
stored offset and never writes it (the Python function body contains no
assignment to `sensor_zulu_time`). -/
def normalizeCallStep (st : ModuleState) (t : ℚ) : ℚ × ModuleState :=
  (normalize_sensor_event_time st t, st)

/-- Run a sequence of normalizer calls, threading the module state. -/
def runNormalizeCalls (st : ModuleState) : List ℚ → List ℚ × ModuleState
  | [] => ([], st)
  | t :: ts =>
    match normalizeCallStep st t with
    | (r, st1) =>
      match runNormalizeCalls st1 ts with
      | (rs, st2) => (r :: rs, st2)

/-- Running normalizer calls maps the inputs through the fixed offset and
leaves the module state untouched. -/
theorem runNormalizeCalls_eq (st : ModuleState) (ts : List ℚ) :
    runNormalizeCalls st ts = (ts.map (normalize_sensor_event_time st), st) := by
  induction ts with
  | nil => rfl
  | cons t ts ih => simp [runNormalizeCalls, normalizeCallStep, ih]

/-- C7: the epoch offset is the second field of the single initial native
acceleration sample; running any sequence of normalizer calls never
changes it, and every call uses this same fixed offset. -/
theorem offset_computed_once (acc : ℚ × ℚ × ℚ × ℚ × ℚ) (ts : List ℚ) :
    (initModule acc).sensor_zulu_time = acc.2.1 ∧
    (runNormalizeCalls (initModule acc) ts).2 = initModule acc ∧
    (runNormalizeCalls (initModule acc) ts).1 =
      ts.map (fun t => (t - acc.2.1) / 1000) := by
  refine ⟨rfl, ?_, ?_⟩
  · rw [runNormalizeCalls_eq]
  · rw [runNormalizeCalls_eq]
    rfl

/-- Lock events emitted by a wrapped call: acquire, native call returning
or raising, release. -/
inductive LockEvent where
  | acquire : LockEvent
  | nativeReturn : LockEvent
  | nativeRaise : LockEvent
  | release : LockEvent
deriving DecidableEq

/-- Model of the closure produced by `wrap_with(lock)`: acquire the lock,
run the native function, release the lock — with no exception handler.
`native_result = some v` models a native call returning `v`;
`native_result = none` models the native call raising.  The first
component is the trace of lock events the call leaves behind. -/
def call_into_function {α : Type} (native_result : Option α) :
    List LockEvent × Except Unit α :=
  match native_result with
  | some v =>
      ([LockEvent.acquire, LockEvent.nativeReturn, LockEvent.release],
        Except.ok v)
  | none =>
      ([LockEvent.acquire, LockEvent.nativeRaise], Except.error ())

/-- Whether the domain lock is held after replaying a trace that started
with the lock free. -/
def lockHeldAfter (tr : List LockEvent) : Bool :=
  tr.foldl (fun h e => match e with
    | LockEvent.acquire => true
    | LockEvent.release => false
    | _ => h) false

/-- An acquire attempt on a lock succeeds only when the lock is free. -/
def acquireEnabled (held : Bool) : Bool := !held

/-- C9: when the native call raises, the wrapped call propagates the
exception but never emits a release event, so the domain lock stays held
and a subsequent acquire on the same domain is not enabled (it blocks). -/
theorem native_exception_leaks_lock (α : Type) :
    (call_into_function (none : Option α)).2 = Except.error () ∧
    (call_into_function (none : Option α)).1 =
      [LockEvent.acquire, LockEvent.nativeRaise] ∧
    LockEvent.release ∉ (call_into_function (none : Option α)).1 ∧
    lockHeldAfter (call_into_function (none : Option α)).1 = true ∧
    acquireEnabled (lockHeldAfter (call_into_function (none : Option α)).1)
      = false := by
  refine ⟨rfl, rfl, ?_, rfl, rfl⟩
  simp [call_into_function]

/-- `get_light()`: project the illumination scalar (third field) out of
the native five-field tuple; `None` passes through. -/
def get_light (return_value : Option (ℚ × ℚ × ℚ × ℚ × ℚ)) : Option ℚ :=
  match return_value with
  | some (_, _, illumination, _, _) => some illumination
  | none => none

/-- C10: `get_light` returns exactly the raw third field of the native
tuple — the epoch and event-time fields are discarded and no timestamp is
normalized or returned — and `None` maps to `None`. -/
theorem get_light_spec (e t illumination a b : ℚ) :
    get_light (some (e, t, illumination, a, b)) = some illumination ∧
    get_light none = none :=
  ⟨rfl, rfl⟩

/-- Python 2 value universe as seen by the scrubber: `VStr` is a byte
string (the Python 2 `str` type), `VUnicode` a sequence of code points
(the Python 2 `unicode` type); lists, tuples and dicts hold values
recursively; numbers, booleans and `None` are atoms. -/
inductive Value where
  | VNone : Value
  | VBool : Bool → Value
  | VInt : Int → Value
  | VFloat : ℚ → Value
  | VStr : List Nat → Value
  | VUnicode : List Nat → Value
  | VList : List Value → Value
  | VTuple : List Value → Value
  | VDict : List (Value × Value) → Value

/-- The ASCII `replace` error handler: a code point below 128 passes
through, any other code point becomes a single placeholder `?` (63). -/
def replaceNonAscii (c : Nat) : Nat := if c < 128 then c else 63

/-- `_scrub_string(source_string)`: `source_string.encode("ascii",
"replace")`.  On a `unicode` value every non-ASCII code point becomes one
`?`.  On a `str` value Python 2 first implicitly decodes it as strict
ASCII, so the call succeeds (returning the same bytes) only when every
byte is below 128.  Any other value has no `encode` method and raises. -/
def _scrub_string : Value → Option (List Nat)
  | Value.VUnicode cs => some (cs.map replaceNonAscii)
  | Value.VStr bs => if bs.all (fun b => b < 128) then some bs else none
  | _ => none

/-- Python dict key equality against the scrubbed (`str`) key being
inserted: only a `str` with the same bytes matches. -/
def keyMatches (k : List Nat) : Value → Bool
  | Value.VStr bs => bs == k
  | _ => false

/-- `clean_dict[clean_key] = value`: replace the value in place when the
key is present, append the new entry otherwise. -/
def dictInsert : List (Value × Value) → List Nat → Value → List (Value × Value)
  | [], k, v => [(Value.VStr k, v)]
  | (k0, v0) :: rest, k, v =>
      if keyMatches k k0 then (k0, v) :: rest
      else (k0, v0) :: dictInsert rest k v

mutual

/-- `scrub_unicode_from(value)`: dispatch on the value type — `unicode`
is scrubbed to a `str`, lists and dicts are scrubbed recursively, and
every other value (including tuples, per the source note
"Tuples are not handled yet") is returned unchanged. -/
def scrub_unicode_from : Value → Option Value
  | Value.VUnicode cs =>
      match _scrub_string (Value.VUnicode cs) with
      | some bs => some (Value.VStr bs)
      | none => none
  | Value.VList l =>
      match _scrub_list l with
      | some cl => some (Value.VList cl)
      | none => none
  | Value.VDict d =>
      match _scrub_dict [] d with
      | some cd => some (Value.VDict cd)
      | none => none
  | v => some v

/-- `_scrub_list(source_list)`: scrub every element in order, collecting
the results; any failure propagates. -/
def _scrub_list : List Value → Option (List Value)
  | [] => some []
  | v :: rest =>
      match scrub_unicode_from v, _scrub_list rest with
      | some cv, some crest => some (cv :: crest)
      | _, _ => none

/-- `_scrub_dict(source_dict)`: iterate over the items, scrub each key as
a string and each value recursively, and insert into the accumulating
clean dict (colliding clean keys overwrite). -/
def _scrub_dict (clean_dict : List (Value × Value)) :
    List (Value × Value) → Option (List (Value × Value))
  | [] => some clean_dict
  | (key, value) :: rest =>
      match _scrub_string key, scrub_unicode_from value with
      | some ck, some cv => _scrub_dict (dictInsert clean_dict ck cv) rest
      | _, _ => none

end

/-- Occurrence of a value inside another, descending through lists and
through dict keys and values but NOT through tuples. -/
inductive OccursOutsideTuples : Value → Value → Prop where
  | here (v : Value) : OccursOutsideTuples v v
  | inList {u x : Value} {l : List Value} :
      x ∈ l → OccursOutsideTuples u x → OccursOutsideTuples u (Value.VList l)
  | inDictKey {u : Value} {e : Value × Value} {d : List (Value × Value)} :
      e ∈ d → OccursOutsideTuples u e.1 → OccursOutsideTuples u (Value.VDict d)
  | inDictValue {u : Value} {e : Value × Value} {d : List (Value × Value)} :
      e ∈ d → OccursOutsideTuples u e.2 → OccursOutsideTuples u (Value.VDict d)

/-- Occurrence of a value anywhere inside another, descending through
lists, tuples, and dict keys and values. -/
inductive OccursIn : Value → Value → Prop where
  | here (v : Value) : OccursIn v v
  | inList {u x : Value} {l : List Value} :
      x ∈ l → OccursIn u x → OccursIn u (Value.VList l)
  | inTuple {u x : Value} {l : List Value} :
      x ∈ l → OccursIn u x → OccursIn u (Value.VTuple l)
  | inDictKey {u : Value} {e : Value × Value} {d : List (Value × Value)} :
      e ∈ d → OccursIn u e.1 → OccursIn u (Value.VDict d)
  | inDictValue {u : Value} {e : Value × Value} {d : List (Value × Value)} :
      e ∈ d → OccursIn u e.2 → OccursIn u (Value.VDict d)

/-- Characterization of scrubber outputs: a fixed point of the scrubber
with no unicode value remaining outside tuples. -/
def ScrubOutput (w : Value) : Prop :=
  scrub_unicode_from w = some w ∧
  ∀ cs, ¬ OccursOutsideTuples (Value.VUnicode cs) w

/-- An entry of a scrubbed dict: the key is an all-ASCII byte string and
the value is itself a scrubber output. -/
def GoodEntry (e : Value × Value) : Prop :=
  (∃ bs, e.1 = Value.VStr bs ∧ bs.all (fun b => b < 128) = true) ∧
  ScrubOutput e.2

/-- A scrubbed dict: every entry is good and the keys are distinct. -/
def GoodDict (d : List (Value × Value)) : Prop :=
  (∀ e ∈ d, GoodEntry e) ∧ (d.map Prod.fst).Nodup

lemma scrub_string_ascii {k : Value} {ck : List Nat}
    (h : _scrub_string k = some ck) : ck.all (fun b => b < 128) = true := by
  cases k <;> simp [_scrub_string] at h
  case VStr bs =>
    obtain ⟨hall, rfl⟩ := h
    simpa using hall
  case VUnicode cs =>
    subst h
    simp only [List.all_eq_true, List.mem_map]
    rintro b ⟨c, -, rfl⟩
    simp only [replaceNonAscii]
    split <;> simp_all

lemma scrub_string_of_ascii {bs : List Nat}
    (h : bs.all (fun b => b < 128) = true) :
    _scrub_string (Value.VStr bs) = some bs := by
  simp [_scrub_string, h]

lemma dictInsert_good {acc : List (Value × Value)} {k : List Nat} {v : Value}
    (hacc : ∀ e ∈ acc, GoodEntry e)
    (hk : k.all (fun b => b < 128) = true) (hv : ScrubOutput v) :
    ∀ e ∈ dictInsert acc k v, GoodEntry e := by
  induction acc with
  | nil =>
    intro e he
    simp [dictInsert] at he
    subst he
    exact ⟨⟨k, rfl, hk⟩, hv⟩
  | cons e0 rest ih =>
    obtain ⟨k0, v0⟩ := e0
    intro e he
    rw [dictInsert] at he
    split at he
    · rcases List.mem_cons.mp he with rfl | hmem
      · exact ⟨(hacc (k0, v0) (List.mem_cons_self _ _)).1, hv⟩
      · exact hacc _ (List.mem_cons_of_mem _ hmem)
    · rcases List.mem_cons.mp he with rfl | hmem
      · exact hacc _ (List.mem_cons_self _ _)
      · exact ih (fun e2 he2 => hacc e2 (List.mem_cons_of_mem _ he2)) e hmem

lemma dictInsert_keys_sub {acc : List (Value × Value)} {k : List Nat} {v : Value} :
    ∀ x ∈ (dictInsert acc k v).map Prod.fst,
      x ∈ acc.map Prod.fst ∨ x = Value.VStr k := by
  induction acc with
  | nil =>
    intro x hx
    simp [dictInsert] at hx
    exact Or.inr hx
  | cons e0 rest ih =>
    obtain ⟨k0, v0⟩ := e0
    intro x hx
    rw [dictInsert] at hx
    split at hx
    · simp at hx
      rcases hx with rfl | hx
      · simp
      · exact Or.inl (by simp [hx])
    · simp at hx
      rcases hx with rfl | hx
      · simp
      · rcases ih x (by simpa using hx) with h | h
        · exact Or.inl (by simp [List.mem_map] at h ⊢; tauto)
        · exact Or.inr h

lemma dictInsert_nodup {acc : List (Value × Value)} {k : List Nat} {v : Value}
    (hacc : ∀ e ∈ acc, ∃ bs, e.1 = Value.VStr bs)
    (hnd : (acc.map Prod.fst).Nodup) :
    ((dictInsert acc k v).map Prod.fst).Nodup := by
  induction acc with
  | nil => simp [dictInsert]
  | cons e0 rest ih =>
    obtain ⟨k0, v0⟩ := e0
    rw [dictInsert]
    split
    · simpa using hnd
    · rename_i hnm
      simp only [List.map_cons, List.nodup_cons] at hnd ⊢
      refine ⟨?_, ih (fun e2 he2 => hacc e2 (List.mem_cons_of_mem _ he2)) hnd.2⟩
      intro hk0
      rcases dictInsert_keys_sub k0 hk0 with h | h
      · exact hnd.1 h
      · obtain ⟨bs0, hbs0⟩ := hacc (k0, v0) (List.mem_cons_self _ _)
        simp only at hbs0
        subst hbs0
        simp only [keyMatches] at hnm
        have : bs0 = k := by
          simpa using h
        subst this
        simp at hnm

lemma dictInsert_append {acc : List (Value × Value)} {k : List Nat} {v : Value}
    (hacc : ∀ e ∈ acc, ∃ bs, e.1 = Value.VStr bs)
    (hni : Value.VStr k ∉ acc.map Prod.fst) :
    dictInsert acc k v = acc ++ [(Value.VStr k, v)] := by
  induction acc with
  | nil => simp [dictInsert]
  | cons e0 rest ih =>
    obtain ⟨k0, v0⟩ := e0
    obtain ⟨bs0, hbs0⟩ := hacc (k0, v0) (List.mem_cons_self _ _)
    simp only at hbs0
    subst hbs0
    simp only [List.map_cons, List.mem_cons, not_or] at hni
    rw [dictInsert]
    have hnm : keyMatches k (Value.VStr bs0) = false := by
      simp only [keyMatches, beq_eq_false_iff_ne, ne_eq]
      intro hkk
      exact hni.1 (by rw [hkk])
    rw [hnm]
    simp only [Bool.false_eq_true, if_false, List.cons_append, List.cons.injEq, true_and]
    exact ih (fun e2 he2 => hacc e2 (List.mem_cons_of_mem _ he2)) hni.2

lemma scrub_dict_good :
    ∀ (entries acc cd : List (Value × Value)),
      (∀ e ∈ acc, GoodEntry e) → (acc.map Prod.fst).Nodup →
      (∀ p ∈ entries, ∀ w, scrub_unicode_from p.2 = some w → ScrubOutput w) →
      _scrub_dict acc entries = some cd →
      (∀ e ∈ cd, GoodEntry e) ∧ (cd.map Prod.fst).Nodup := by
  intro entries
  induction entries with
  | nil =>
    intro acc cd h1 h2 _ hs
    simp [_scrub_dict] at hs
    subst hs
    exact ⟨h1, h2⟩
  | cons p rest ih =>
    intro acc cd h1 h2 hIH hs
    obtain ⟨key, value⟩ := p
    cases hck : _scrub_string key with
    | none => simp [_scrub_dict, hck] at hs
    | some ck =>
      cases hcv : scrub_unicode_from value with
      | none => simp [_scrub_dict, hck, hcv] at hs
      | some cv =>
        simp only [_scrub_dict, hck, hcv] at hs
        have hout : ScrubOutput cv :=
          hIH (key, value) (List.mem_cons_self _ _) cv hcv
        have hgood1 := dictInsert_good h1 (scrub_string_ascii hck) hout
        have hnd1 : ((dictInsert acc ck cv).map Prod.fst).Nodup :=
          dictInsert_nodup (fun e he => (h1 e he).1.imp
            (fun bs hb => hb.1)) h2
        exact ih (dictInsert acc ck cv) cd hgood1 hnd1
          (fun p2 hp2 => hIH p2 (List.mem_cons_of_mem _ hp2)) hs

lemma scrub_dict_replay :
    ∀ (d acc : List (Value × Value)),
      (∀ e ∈ d, GoodEntry e) →
      (∀ e ∈ acc, ∃ bs, e.1 = Value.VStr bs) →
      (acc.map Prod.fst ++ d.map Prod.fst).Nodup →
      _scrub_dict acc d = some (acc ++ d) := by
  intro d
  induction d with
  | nil =>
    intro acc _ _ _
    simp [_scrub_dict]
  | cons e rest ih =>
    intro acc hgood hacc hnd
    obtain ⟨kv, vv⟩ := e
    obtain ⟨⟨bs, hk, hascii⟩, hfix⟩ := hgood (kv, vv) (List.mem_cons_self _ _)
    simp only at hk
    subst hk
    have hfix2 : scrub_unicode_from vv = some vv := hfix.1
    simp only [_scrub_dict, scrub_string_of_ascii hascii, hfix2]
    have hdisj : Value.VStr bs ∉ acc.map Prod.fst := by
      have := (List.nodup_append.mp hnd).2.2
      intro hmem
      exact this hmem (by simp)
    rw [dictInsert_append hacc hdisj]
    have hres := ih (acc ++ [(Value.VStr bs, vv)])
      (fun e2 he2 => hgood e2 (List.mem_cons_of_mem _ he2))
      (by
        intro e2 he2
        rcases List.mem_append.mp he2 with h | h
        · exact hacc e2 h
        · simp at h
          subst h
          exact ⟨bs, rfl⟩)
      (by simpa using hnd)
    rw [hres]
    simp

lemma scrub_list_outputs :
    ∀ (l cl : List Value),
      (∀ x ∈ l, ∀ w, scrub_unicode_from x = some w → ScrubOutput w) →
      _scrub_list l = some cl → ∀ y ∈ cl, ScrubOutput y := by
  intro l
  induction l with
  | nil =>
    intro cl _ hs
    simp [_scrub_list] at hs
    subst hs
    simp
  | cons x rest ih =>
    intro cl hIH hs
    cases hcx : scrub_unicode_from x with
    | none => simp [_scrub_list, hcx] at hs
    | some cx =>
      cases hcr : _scrub_list rest with
      | none => simp [_scrub_list, hcx, hcr] at hs
      | some crest =>
        simp only [_scrub_list, hcx, hcr, Option.some.injEq] at hs
        subst hs
        intro y hy
        rcases List.mem_cons.mp hy with rfl | hy
        · exact hIH x (List.mem_cons_self _ _) y hcx
        · exact ih crest (fun x2 hx2 => hIH x2 (List.mem_cons_of_mem _ hx2))
            hcr y hy

lemma scrub_list_replay :
    ∀ (cl : List Value), (∀ y ∈ cl, scrub_unicode_from y = some y) →
      _scrub_list cl = some cl := by
  intro cl
  induction cl with
  | nil => simp [_scrub_list]
  | cons y rest ih =>
    intro h
    rw [_scrub_list, h y (List.mem_cons_self _ _),
      ih (fun y2 hy2 => h y2 (List.mem_cons_of_mem _ hy2))]

lemma scrubOutput_of_scrub :
    ∀ (n : Nat) (v w : Value), sizeOf v ≤ n →
      scrub_unicode_from v = some w → ScrubOutput w := by
  intro n
  induction n with
  | zero =>
    intro v w hsz _
    exfalso
    cases v <;> simp at hsz
  | succ n ih =>
    intro v w hsz hscrub
    cases v with
    | VNone =>
      simp [scrub_unicode_from] at hscrub
      subst hscrub
      exact ⟨by simp [scrub_unicode_from], fun cs h => by cases h⟩
    | VBool b =>
      simp [scrub_unicode_from] at hscrub
      subst hscrub
      exact ⟨by simp [scrub_unicode_from], fun cs h => by cases h⟩
    | VInt i =>
      simp [scrub_unicode_from] at hscrub
      subst hscrub
      exact ⟨by simp [scrub_unicode_from], fun cs h => by cases h⟩
    | VFloat q =>
      simp [scrub_unicode_from] at hscrub
      subst hscrub
      exact ⟨by simp [scrub_unicode_from], fun cs h => by cases h⟩
    | VStr bs =>
      simp [scrub_unicode_from] at hscrub
      subst hscrub
      exact ⟨by simp [scrub_unicode_from], fun cs h => by cases h⟩
    | VTuple l =>
      simp [scrub_unicode_from] at hscrub
      subst hscrub
      exact ⟨by simp [scrub_unicode_from], fun cs h => by cases h⟩
    | VUnicode cs =>
      simp [scrub_unicode_from, _scrub_string] at hscrub
      subst hscrub
      exact ⟨by simp [scrub_unicode_from], fun cs2 h => by cases h⟩
    | VList l =>
      cases hcl : _scrub_list l with
      | none => simp [scrub_unicode_from, hcl] at hscrub
      | some cl =>
        simp only [scrub_unicode_from, hcl, Option.some.injEq] at hscrub
        subst hscrub
        have hmemIH : ∀ x ∈ l, ∀ w2,
            scrub_unicode_from x = some w2 → ScrubOutput w2 := by
          intro x hx w2 hw2
          refine ih x w2 ?_ hw2
          have h1 : sizeOf x < sizeOf l := List.sizeOf_lt_of_mem hx
          have h2 : sizeOf (Value.VList l) = 1 + sizeOf l := by simp
          omega
        have houts := scrub_list_outputs l cl hmemIH hcl
        refine ⟨?_, ?_⟩
        · simp [scrub_unicode_from,
            scrub_list_replay cl (fun y hy => (houts y hy).1)]
        · intro cs h
          cases h with
          | inList hx hocc => exact (houts _ hx).2 cs hocc
    | VDict d =>
      cases hcd : _scrub_dict [] d with
      | none => simp [scrub_unicode_from, hcd] at hscrub
      | some cd =>
        simp only [scrub_unicode_from, hcd, Option.some.injEq] at hscrub
        subst hscrub
        have hmemIH : ∀ p ∈ d, ∀ w2,
            scrub_unicode_from p.2 = some w2 → ScrubOutput w2 := by
          intro p hp w2 hw2
          refine ih p.2 w2 ?_ hw2
          have h1 : sizeOf p < sizeOf d := List.sizeOf_lt_of_mem hp
          have h2 : sizeOf (Value.VDict d) = 1 + sizeOf d := by simp
          obtain ⟨pk, pv⟩ := p
          have h3 : sizeOf (pk, pv) = 1 + sizeOf pk + sizeOf pv := by simp
          simp only at h1 ⊢
          omega
        have hgood := scrub_dict_good d [] cd (by simp) (by simp) hmemIH hcd
        refine ⟨?_, ?_⟩
        · have hrep := scrub_dict_replay cd [] hgood.1 (by simp)
            (by simpa using hgood.2)
          simp only [List.nil_append] at hrep
          simp [scrub_unicode_from, hrep]
        · intro cs h
          cases h with
          | inDictKey he hocc =>
            obtain ⟨⟨bs, hk, -⟩, -⟩ := hgood.1 _ he
            rw [hk] at hocc
            cases hocc
          | inDictValue he hocc =>
            exact ((hgood.1 _ he).2).2 cs hocc

/-- C5: the scrubber is idempotent — whenever `scrub_unicode_from v`
succeeds with result `w`, scrubbing `w` again succeeds and returns `w`
itself, so `scrub_unicode_from (scrub_unicode_from v) = scrub_unicode_from v`. -/
theorem scrub_unicode_from_idempotent (v w : Value)
    (h : scrub_unicode_from v = some w) : scrub_unicode_from w = some w :=
  (scrubOutput_of_scrub (sizeOf v) v w le_rfl h).1

/-- Witness for C5: rescrubbing the scrub of a dict holding a non-ASCII
unicode key and value is the identity on the scrubbed result. -/
theorem scrub_unicode_from_idempotent_witness :
    scrub_unicode_from (Value.VDict [(Value.VStr [63], Value.VStr [63])]) =
      some (Value.VDict [(Value.VStr [63], Value.VStr [63])]) :=
  scrub_unicode_from_idempotent
    (Value.VDict [(Value.VUnicode [200], Value.VUnicode [300])])
    (Value.VDict [(Value.VStr [63], Value.VStr [63])])
    (by simp [scrub_unicode_from, _scrub_dict, _scrub_string, dictInsert,
      replaceNonAscii])

/-- C6 counterexample: the scrubber does not descend into tuples — a
non-ASCII unicode string nested inside a tuple inside a list survives
scrubbing unchanged, although it occurs inside the result. -/
theorem scrub_tuple_counterexample :
    scrub_unicode_from (Value.VList [Value.VTuple [Value.VUnicode [233]]]) =
      some (Value.VList [Value.VTuple [Value.VUnicode [233]]]) ∧
    OccursIn (Value.VUnicode [233])
      (Value.VList [Value.VTuple [Value.VUnicode [233]]]) ∧
    ¬ (233 < 128) := by
  refine ⟨by simp [scrub_unicode_from, _scrub_list], ?_, by omega⟩
  exact OccursIn.inList (List.mem_cons_self _ _)
    (OccursIn.inTuple (List.mem_cons_self _ _) (OccursIn.here _))

/-- C6 (amended): on a text value the scrubber replaces each non-ASCII
code point with the single ASCII placeholder `?`; lists and dict keys and
values are scrubbed recursively, so a successful scrub leaves no unicode
value anywhere outside tuples — but tuples pass through unchanged, so
text nested inside a tuple is not scrubbed. -/
theorem scrub_no_unicode_outside_tuples :
    (∀ cs, scrub_unicode_from (Value.VUnicode cs) =
      some (Value.VStr (cs.map replaceNonAscii))) ∧
    (∀ c, replaceNonAscii c < 128) ∧
    (∀ v w, scrub_unicode_from v = some w →
      ∀ cs, ¬ OccursOutsideTuples (Value.VUnicode cs) w) := by
  refine ⟨fun cs => by simp [scrub_unicode_from, _scrub_string],
    fun c => ?_,
    fun v w h cs => (scrubOutput_of_scrub (sizeOf v) v w le_rfl h).2 cs⟩
  unfold replaceNonAscii
  split <;> omega

/-- Witness for C6 (amended): scrubbing a list holding a non-ASCII
unicode string yields a result in which no unicode value occurs outside
tuples. -/
theorem scrub_no_unicode_outside_tuples_witness :
    ¬ OccursOutsideTuples (Value.VUnicode [233])
      (Value.VList [Value.VStr [63]]) :=
  scrub_no_unicode_outside_tuples.2.2
    (Value.VList [Value.VUnicode [233]])
    (Value.VList [Value.VStr [63]])
    (by simp [scrub_unicode_from, _scrub_list, _scrub_string,
      replaceNonAscii])
    [233]

/-- The four independent lock domains of the module: `sensorlock`,
`outputlock`, `medialock`, `vibratelock`. -/
inductive Domain where
  | sensors : Domain
  | output : Domain
  | media : Domain
  | vibration : Domain
deriving DecidableEq

/-- Phase of a thread running one lock-wrapped call: before acquiring its
domain lock, inside the native-call body holding the lock, or finished. -/
inductive Phase where
  | idle : Phase
  | critical : Phase
  | done : Phase
deriving DecidableEq

/-- Configuration of two concurrent caller threads (indexed by `Bool`). -/
structure Cfg where
  ph0 : Phase
  ph1 : Phase
deriving DecidableEq

/-- Phase of thread `i`. -/
def Cfg.ph (c : Cfg) : Bool → Phase
  | false => c.ph0
  | true => c.ph1

/-- Update the phase of thread `i`. -/
def Cfg.setPh (c : Cfg) : Bool → Phase → Cfg
  | false, p => { c with ph0 := p }
  | true, p => { c with ph1 := p }

/-- Interleaving semantics of two threads each performing one wrapped
call into its own lock domain `dom i`: a thread may acquire its domain
lock and enter the native-call body only while no other thread of the
same domain is inside its body (each domain lock is a simple mutex), and
may leave the body by releasing the lock. -/
inductive Step (dom : Bool → Domain) (i : Bool) : Cfg → Cfg → Prop where
  | acq {c : Cfg} : c.ph i = Phase.idle →
      (dom i = dom (!i) → c.ph (!i) ≠ Phase.critical) →
      Step dom i c (c.setPh i Phase.critical)
  | rel {c : Cfg} : c.ph i = Phase.critical →
      Step dom i c (c.setPh i Phase.done)

/-- Both threads start before their lock acquisition. -/
def initCfg : Cfg := { ph0 := Phase.idle, ph1 := Phase.idle }

/-- Configurations reachable by interleaving the two threads. -/
def Reachable (dom : Bool → Domain) : Cfg → Prop :=
  Relation.ReflTransGen (fun a b => ∃ i, Step dom i a b) initCfg

lemma ph_setPh_same (c : Cfg) (i : Bool) (p : Phase) :
    (c.setPh i p).ph i = p := by
  cases i <;> rfl

lemma ph_setPh_other (c : Cfg) (i : Bool) (p : Phase) :
    (c.setPh i p).ph (!i) = c.ph (!i) := by
  cases i <;> rfl

lemma mutex_invariant (dom : Bool → Domain) (h : dom false = dom true) :
    ∀ c, Reachable dom c →
      ¬ (c.ph false = Phase.critical ∧ c.ph true = Phase.critical) := by
  intro c hc
  induction hc with
  | refl =>
    rintro ⟨h0, -⟩
    simp [initCfg, Cfg.ph] at h0
  | tail hab hbc ih =>
    obtain ⟨i, hstep⟩ := hbc
    cases hstep with
    | acq hidle hblock =>
      rename_i b
      rintro ⟨hc0, hc1⟩
      have hdom : dom i = dom (!i) := by
        cases i
        · simpa using h
        · simpa using h.symm
      have hother : (b.setPh i Phase.critical).ph (!i) = b.ph (!i) :=
        ph_setPh_other b i Phase.critical
      have hcrit : b.ph (!i) = Phase.critical := by
        cases i
        · rw [← hother]
          exact hc1
        · rw [← hother]
          exact hc0
      exact hblock hdom hcrit
    | rel hcrit =>
      rename_i b
      rintro ⟨hc0, hc1⟩
      have hsame : (b.setPh i Phase.done).ph i = Phase.done :=
        ph_setPh_same b i Phase.done
      cases i
      · rw [hc0] at hsame
        exact Phase.noConfusion hsame
      · rw [hc1] at hsame
        exact Phase.noConfusion hsame

/-- C8: the four lock domains are independent mutexes — in every
reachable configuration, when the two threads call into different
domains each unfinished thread can always take a step (neither blocks
the other), and when they call into the same domain their native-call
bodies never overlap (the domain lock serializes them). -/
theorem lock_domains_independent (dom : Bool → Domain) (c : Cfg)
    (hreach : Reachable dom c) :
    (dom false ≠ dom true →
      ∀ i, c.ph i ≠ Phase.done → ∃ c2, Step dom i c c2) ∧
    (dom false = dom true →
      ¬ (c.ph false = Phase.critical ∧ c.ph true = Phase.critical)) := by
  constructor
  · intro hne i hip
    cases hpi : c.ph i with
    | idle =>
      refine ⟨c.setPh i Phase.critical, Step.acq hpi ?_⟩
      intro hdom
      exfalso
      cases i
      · exact hne hdom
      · exact hne hdom.symm
    | critical => exact ⟨c.setPh i Phase.done, Step.rel hpi⟩
    | done => exact absurd hpi hip
  · intro heq
    exact mutex_invariant dom heq c hreach

/-- Two concrete distinct lock domains, one per thread. -/
def twoDomains : Bool → Domain := fun i =>
  if i then Domain.output else Domain.sensors

/-- Witness for C8 at the initial configuration with the sensors and
output domains. -/
theorem lock_domains_independent_witness :
    (twoDomains false ≠ twoDomains true →
      ∀ i, initCfg.ph i ≠ Phase.done → ∃ c2, Step twoDomains i initCfg c2) ∧
    (twoDomains false = twoDomains true →
      ¬ (initCfg.ph false = Phase.critical ∧
        initCfg.ph true = Phase.critical)) :=
  lock_domains_independent twoDomains initCfg Relation.ReflTransGen.refl
